import Mathlib

/-!
Verification of the reverse-http-proxy repository (src/main.rs).

Byte buffers are modelled as lists of natural numbers (each byte a value
below 256), Rust strings as lists of characters.  Every definition is a
direct translation of the corresponding Rust item; doc comments name the
source item.  The external httparse crate (a dependency whose source is
not part of this repository) is modelled from its documented behaviour.
-/

set_option maxRecDepth 4000

abbrev Bytes := List Nat
abbrev Str := List Char

/-- ASCII string literal to bytes, used for byte literals of the source. -/
def asciiBytes (s : String) : Bytes := s.toList.map Char.toNat

/-- UTF-8 encoding of a single character (1 to 4 bytes). -/
def utf8EncodeChar (c : Char) : Bytes :=
  let n := c.toNat
  if n < 0x80 then [n]
  else if n < 0x800 then [0xC0 + n / 0x40, 0x80 + n % 0x40]
  else if n < 0x10000 then
    [0xE0 + n / 0x1000, 0x80 + (n / 0x40) % 0x40, 0x80 + n % 0x40]
  else
    [0xF0 + n / 0x40000, 0x80 + (n / 0x1000) % 0x40, 0x80 + (n / 0x40) % 0x40, 0x80 + n % 0x40]

/-- UTF-8 encoding of a string, as produced by Rust when a String is viewed as bytes. -/
def utf8Encode (s : Str) : Bytes := (s.map utf8EncodeChar).flatten

/-- Rust str::len, the byte length of a string. -/
def byteLen (s : Str) : Nat := (utf8Encode s).length

/-- Continuation byte test for UTF-8 decoding (0x80 to 0xBF). -/
def isCont (b : Nat) : Bool := 0x80 ≤ b && b ≤ 0xBF

/-- The replacement character U+FFFD. -/
def repl : Char := Char.ofNat 0xFFFD

/-- Valid second byte of a three-byte UTF-8 sequence, per the std validation table. -/
def valid3 (b b2 : Nat) : Bool :=
  (b = 0xE0 && 0xA0 ≤ b2 && b2 ≤ 0xBF) ||
  (0xE1 ≤ b && b ≤ 0xEC && isCont b2) ||
  (b = 0xED && 0x80 ≤ b2 && b2 ≤ 0x9F) ||
  (0xEE ≤ b && b ≤ 0xEF && isCont b2)

/-- Valid second byte of a four-byte UTF-8 sequence, per the std validation table. -/
def valid4 (b b2 : Nat) : Bool :=
  (b = 0xF0 && 0x90 ≤ b2 && b2 ≤ 0xBF) ||
  (0xF1 ≤ b && b ≤ 0xF3 && isCont b2) ||
  (b = 0xF4 && 0x80 ≤ b2 && b2 ≤ 0x8F)

/-- Fuel-based helper for utf8Lossy; every step consumes at least one byte,
so fuel equal to the byte count never runs out. -/
def utf8LossyFuel : Nat → Bytes → Str
  | 0, _ => []
  | _ + 1, [] => []
  | fuel + 1, b :: rest =>
    if b < 0x80 then Char.ofNat b :: utf8LossyFuel fuel rest
    else if b < 0xC2 then repl :: utf8LossyFuel fuel rest
    else if b ≤ 0xDF then
      match rest with
      | [] => [repl]
      | b2 :: rest2 =>
        if isCont b2 then Char.ofNat ((b - 0xC0) * 0x40 + (b2 - 0x80)) :: utf8LossyFuel fuel rest2
        else repl :: utf8LossyFuel fuel rest
    else if b ≤ 0xEF then
      match rest with
      | [] => [repl]
      | b2 :: rest2 =>
        if valid3 b b2 then
          match rest2 with
          | [] => [repl]
          | b3 :: rest3 =>
            if isCont b3 then
              Char.ofNat (((b - 0xE0) * 0x40 + (b2 - 0x80)) * 0x40 + (b3 - 0x80))
                :: utf8LossyFuel fuel rest3
            else repl :: utf8LossyFuel fuel rest2
        else repl :: utf8LossyFuel fuel rest
    else if b ≤ 0xF4 then
      match rest with
      | [] => [repl]
      | b2 :: rest2 =>
        if valid4 b b2 then
          match rest2 with
          | [] => [repl]
          | b3 :: rest3 =>
            if isCont b3 then
              match rest3 with
              | [] => [repl]
              | b4 :: rest4 =>
                if isCont b4 then
                  Char.ofNat ((((b - 0xF0) * 0x40 + (b2 - 0x80)) * 0x40 + (b3 - 0x80)) * 0x40 + (b4 - 0x80))
                    :: utf8LossyFuel fuel rest4
                else repl :: utf8LossyFuel fuel rest3
            else repl :: utf8LossyFuel fuel rest2
        else repl :: utf8LossyFuel fuel rest
    else repl :: utf8LossyFuel fuel rest

/-- Models String::from_utf8_lossy: UTF-8 decoding replacing each maximal
invalid subpart by U+FFFD, following the error lengths of the std validator. -/
def utf8Lossy (l : Bytes) : Str := utf8LossyFuel l.length l

/-- The Unicode White_Space property, as used by Rust char::is_whitespace. -/
def isRustWhitespace (c : Char) : Bool :=
  let n := c.toNat
  (0x09 ≤ n && n ≤ 0x0D) || n = 0x20 || n = 0x85 || n = 0xA0 || n = 0x1680 ||
  (0x2000 ≤ n && n ≤ 0x200A) || n = 0x2028 || n = 0x2029 || n = 0x202F ||
  n = 0x205F || n = 0x3000

/-- Helper for splitWhitespace: acc holds the current token reversed. -/
def splitWhitespaceAux : Str → Str → List Str
  | [], acc => if acc = [] then [] else [acc.reverse]
  | c :: rest, acc =>
    if isRustWhitespace c then
      (if acc = [] then [] else [acc.reverse]) ++ splitWhitespaceAux rest []
    else splitWhitespaceAux rest (c :: acc)

/-- Models str::split_whitespace collected to a vector: maximal runs of
non-whitespace characters, with whitespace runs and empty edges discarded. -/
def splitWhitespace (s : Str) : List Str := splitWhitespaceAux s []

/-- Removes one trailing carriage return, as the std Lines iterator does
after removing the line feed. -/
def stripSuffixCR (s : Str) : Str :=
  if s.getLast? = some '\r' then s.dropLast else s

/-- The first element yielded by str::lines on a non-empty string: the text
before the first line feed, with a carriage return stripped when that line
feed exists; a string without a line feed is yielded whole (a bare trailing
carriage return is kept, per the std documentation). -/
def firstLine (s : Str) : Str :=
  if '\n' ∈ s then stripSuffixCR (s.takeWhile (fun c => c ≠ '\n')) else s

/-- The routing configuration, struct RouteConfig of the source.  The
HashMap of routes is modelled as an association list; HashMap key
uniqueness becomes a Nodup hypothesis in the theorems. -/
structure RouteConfig where
  default_backend : Str
  routes : List (Str × Str)
  rewrite_paths : Bool

/-- Models HashMap::get: lookup by key equality. -/
def lookupRoute : List (Str × Str) → Str → Option Str
  | [], _ => none
  | (k, v) :: rest, path => if k = path then some v else lookupRoute rest path

/-- The longest-match loop of RouteConfig::get_backend_and_prefix: iterate
over the routes, remembering the longest (in bytes, Rust str::len) route
key that the path starts with, together with its backend.  The accumulator
is (best_match, best_backend); the pair is returned swapped, as in the
source. -/
def longestMatchFold (path : Str) : List (Str × Str) → Str → Str → Str × Str
  | [], best_match, best_backend => (best_backend, best_match)
  | (route_path, backend) :: rest, best_match, best_backend =>
    if route_path.isPrefixOf path ∧ byteLen best_match < byteLen route_path then
      longestMatchFold path rest route_path backend
    else
      longestMatchFold path rest best_match best_backend

/-- Models RouteConfig::get_backend_and_prefix: exact route lookup first
(returning the stored key, equal to the path); otherwise the longest
matching route key, starting from best_match empty and the default
backend. -/
def getBackendAndRoute (cfg : RouteConfig) (path : Str) : Str × Str :=
  match lookupRoute cfg.routes path with
  | some backend => (backend, path)
  | none => longestMatchFold path cfg.routes [] cfg.default_backend

/-- Models rewrite_request_path of the source.  The unused original path
argument of the Rust function is kept.  Byte slicing of the path at the
byte length of the stripped route key is modelled as dropping its
characters, equivalent under the starts_with guard. -/
def rewrite_request_path (request_data : Bytes) (_original_path : Str) (prefix_to_strip : Str) : Bytes :=
  if prefix_to_strip = [] then request_data
  else
    let request_str := utf8Lossy request_data
    if request_str = [] then request_data
    else
      match splitWhitespace (firstLine request_str) with
      | [method, path, version] =>
        let new_path :=
          if prefix_to_strip.isPrefixOf path then
            let stripped := path.drop prefix_to_strip.length
            if stripped = [] ∨ stripped.head? ≠ some '/' then '/' :: stripped else stripped
          else path
        let new_first_line := method ++ ' ' :: new_path ++ ' ' :: version
        match List.findIdx? (fun b => b == 13 || b == 10) request_data with
        | some first_line_end => utf8Encode new_first_line ++ request_data.drop first_line_end
        | none => request_data
      | _ => request_data

/-- Models find_header_end of the source: the index just past the first
occurrence of the four bytes CR LF CR LF, if any.  The Rust index loop,
which returns i + 4 for the least i at which the terminator starts, is
rendered as a first-occurrence recursion. -/
def find_header_end : Bytes → Option Nat
  | [] => none
  | b :: rest =>
    if [13, 10, 13, 10].isPrefixOf (b :: rest) then some 4
    else (find_header_end rest).map (· + 1)

/-- Outcome of parse_http_request, the two error strings of the source. -/
inductive ParseError where
  | connectionClosedEarly
  | malformedRequest
  deriving DecidableEq

/-- Outcome of the modelled httparse request parse: Complete with the
request path, Partial (named incomplete here), or a parse error. -/
inductive HtpStatus where
  | complete (path : Str)
  | incomplete
  | failed
  deriving DecidableEq

/-- Modelled from the spec: token bytes of the httparse dependency (crate
source not in src/): printable ASCII except the HTTP separators. -/
def isTokenByte (b : Nat) : Bool :=
  0x21 ≤ b && b ≤ 0x7E &&
  !(b ∈ [0x28, 0x29, 0x3C, 0x3E, 0x40, 0x2C, 0x3B, 0x3A, 0x5C, 0x22, 0x2F, 0x5B, 0x5D, 0x3F, 0x3D, 0x7B, 0x7D])

/-- Modelled from the spec: request-target bytes accepted by the httparse
dependency, restricted here to printable ASCII other than space. -/
def isUriByte (b : Nat) : Bool := 0x21 ≤ b && b ≤ 0x7E

/-- Modelled from the spec: httparse skips empty lines before the request
line. -/
def skipEmptyLines : Bytes → Bytes
  | 13 :: 10 :: rest => skipEmptyLines rest
  | 10 :: rest => skipEmptyLines rest
  | bytes => bytes

/-- Result of parsing the request line: the path and the remaining bytes,
or an incomplete or failed parse. -/
inductive ReqLineResult where
  | done (path : Str) (rest : Bytes)
  | incomplete
  | failed

/-- Modelled from the spec: the httparse request line parse, method SP
request-target SP HTTP/1.x followed by a line ending (CRLF, or a bare LF
which httparse tolerates). -/
def parseRequestLine (bytes : Bytes) : ReqLineResult :=
  let method := bytes.takeWhile isTokenByte
  match bytes.drop method.length with
  | [] => .incomplete
  | b :: rest1 =>
    if method = [] then .failed
    else if b ≠ 32 then .failed
    else
      let pathBytes := rest1.takeWhile isUriByte
      match rest1.drop pathBytes.length with
      | [] => .incomplete
      | b2 :: rest2 =>
        if pathBytes = [] then .failed
        else if b2 ≠ 32 then .failed
        else
          match rest2 with
          | 72 :: 84 :: 84 :: 80 :: 47 :: 49 :: 46 :: d :: rest3 =>
            if d < 48 ∨ 57 < d then .failed
            else
              match rest3 with
              | 13 :: 10 :: rest4 => .done (pathBytes.map Char.ofNat) rest4
              | 10 :: rest4 => .done (pathBytes.map Char.ofNat) rest4
              | [] => .incomplete
              | 13 :: [] => .incomplete
              | _ => .failed
          | _ => if rest2.length < 8 then .incomplete else .failed

/-- Result of parsing one header line: the remaining bytes, or an
incomplete or failed parse. -/
inductive HeaderLineResult where
  | done (rest : Bytes)
  | incomplete
  | failed

/-- Modelled from the spec: one httparse header line, a non-empty token
name, a colon, a value running to the line ending. -/
def parseHeaderLine (bytes : Bytes) : HeaderLineResult :=
  let name := bytes.takeWhile isTokenByte
  match bytes.drop name.length with
  | [] => .incomplete
  | b :: rest1 =>
    if name = [] then .failed
    else if b ≠ 58 then .failed
    else
      let value := rest1.takeWhile (fun v => v ≠ 13 && v ≠ 10)
      match rest1.drop value.length with
      | [] => .incomplete
      | 13 :: 10 :: rest2 => .done rest2
      | 10 :: rest2 => .done rest2
      | _ => .failed

/-- Modelled from the spec: the httparse header loop over the fixed header
slot array; when a further header line starts and no slot remains, the
parse fails (the TooManyHeaders error). -/
def parseHeaders (bytes : Bytes) (slots : Nat) : HtpStatus :=
  match bytes with
  | 13 :: 10 :: _ => .complete []
  | 10 :: _ => .complete []
  | [] => .incomplete
  | 13 :: [] => .incomplete
  | _ =>
    match slots with
    | 0 => .failed
    | s + 1 =>
      match parseHeaderLine bytes with
      | .done rest => parseHeaders rest s
      | .incomplete => .incomplete
      | .failed => .failed

/-- Modelled from the spec: httparse Request::parse with a fixed number of
header slots, returning the request path on completion.  The path carried
by the complete status of parseHeaders is replaced by the request line
path. -/
def httparseModel (bytes : Bytes) (slots : Nat) : HtpStatus :=
  match parseRequestLine (skipEmptyLines bytes) with
  | .done path rest =>
    match parseHeaders rest slots with
    | .complete _ => .complete path
    | .incomplete => .incomplete
    | .failed => .failed
  | .incomplete => .incomplete
  | .failed => .failed

/-- Models writing n read bytes into the buffer at offset total, the Rust
read into the slice starting at total_read. -/
def writeChunk (buffer : Bytes) (total : Nat) (data : Bytes) : Bytes :=
  buffer.take total ++ data ++ buffer.drop (total + data.length)

/-- Models the buffer resize of the source: when the buffer is full, double
its length by appending zero bytes. -/
def resizeIfFull (buffer : Bytes) (total : Nat) : Bytes :=
  if buffer.length ≤ total then buffer ++ List.replicate buffer.length 0 else buffer

/-- Remaining stream after a read consumed n bytes of the first chunk: the
rest of that chunk stays pending when the read was truncated by the buffer
capacity. -/
def nextChunks (c : Bytes) (n : Nat) (rest : List Bytes) : List Bytes :=
  if n < c.length then c.drop n :: rest else rest

/-- Size measure of a chunk stream; each loop iteration that reads at least
one byte strictly decreases it. -/
def chunksSize : List Bytes → Nat
  | [] => 0
  | c :: rest => c.length + 1 + chunksSize rest

/-- Models the read loop of parse_http_request.  The client stream is a
list of chunks; a read delivers as much of the first chunk as fits in the
free part of the buffer.  A read that delivers no bytes (end of stream, or
a full buffer making the target slice empty) is the Rust n == 0 case.  The
fuel argument only drives the recursion; chunksSize chunks + 1 fuel always
suffices since every iteration consumes at least one byte. -/
def parseLoopFuel : Nat → Bytes → Nat → List Bytes → Except ParseError (Str × Bytes)
  | 0, _, _, _ => .error .connectionClosedEarly
  | fuel + 1, buffer, total_read, chunks =>
    match chunks with
    | [] => .error .connectionClosedEarly
    | c :: rest =>
      let n := min c.length (buffer.length - total_read)
      if n = 0 then .error .connectionClosedEarly
      else
        let buffer1 := writeChunk buffer total_read (c.take n)
        let total1 := total_read + n
        match find_header_end (buffer1.take total1) with
        | some pos =>
          match httparseModel (buffer1.take pos) 64 with
          | .complete path => .ok (path, buffer1.take total1)
          | .incomplete => parseLoopFuel fuel (resizeIfFull buffer1 total1) total1 (nextChunks c n rest)
          | .failed => .error .malformedRequest
        | none => parseLoopFuel fuel (resizeIfFull buffer1 total1) total1 (nextChunks c n rest)

/-- Models parse_http_request: run the read loop on a fresh 8192-byte
buffer.  On success the returned pair is the parsed path and every byte
read so far. -/
def parse_http_request (chunks : List Bytes) : Except ParseError (Str × Bytes) :=
  parseLoopFuel (chunksSize chunks + 1) (List.replicate 8192 0) 0 chunks

/-- Events of the per-connection handler visible at its two sockets. -/
inductive HandlerEvent where
  | connect (backend : Str)
  | clientWrite (bytes : Bytes)
  | backendWrite (bytes : Bytes)
  | relay
  deriving DecidableEq

/-- The literal 502 response of the source. -/
def response502 : Bytes :=
  asciiBytes "HTTP/1.1 502 Bad Gateway\r\nContent-Length: 15\r\n\r\nBad Gateway\r\n"

/-- Models the per-connection task body of main: parse, route, optionally
rewrite, connect to the backend (connectOk tells whether the dial
succeeds), forward, then relay (writeOk tells whether the forward write
succeeds).  The result is the list of socket events the handler performs
before closing. -/
def handleConnection (cfg : RouteConfig) (parsed : Except ParseError (Str × Bytes))
    (connectOk : Bool) (writeOk : Bool) : List HandlerEvent :=
  match parsed with
  | .error _ => []
  | .ok (path, request_data) =>
    let resolved := getBackendAndRoute cfg path
    let final_request_data :=
      if cfg.rewrite_paths then rewrite_request_path request_data path resolved.2
      else request_data
    if connectOk then
      if writeOk then [.connect resolved.1, .backendWrite final_request_data, .relay]
      else [.connect resolved.1, .backendWrite final_request_data]
    else [.connect resolved.1, .clientWrite response502]

/-- The bytes the handler writes to the client socket, in order. -/
def clientWrites (events : List HandlerEvent) : List Bytes :=
  events.filterMap (fun e => match e with | .clientWrite b => some b | _ => none)

/-- The bytes the handler writes to the backend socket, in order. -/
def backendWrites (events : List HandlerEvent) : List Bytes :=
  events.filterMap (fun e => match e with | .backendWrite b => some b | _ => none)

/-- Decidable equality for results of the parse, used only to evaluate the
model on concrete inputs. -/
instance (priority := low) {ε α : Type} [DecidableEq ε] [DecidableEq α] : DecidableEq (Except ε α) := by
  intro a b
  cases a <;> cases b
  case error.error e f =>
    exact if h : e = f then .isTrue (by rw [h]) else .isFalse (by intro hc; cases hc; exact h rfl)
  case error.ok e f => exact .isFalse (by intro hc; cases hc)
  case ok.error e f => exact .isFalse (by intro hc; cases hc)
  case ok.ok e f =>
    exact if h : e = f then .isTrue (by rw [h]) else .isFalse (by intro hc; cases hc; exact h rfl)

/-- The path component of a parse result, used to state that the parsed
path is independent of how the stream is chunked. -/
def resultPath (r : Except ParseError (Str × Bytes)) : Option Str :=
  match r with
  | .ok (p, _) => some p
  | .error _ => none

/-- Whether the parse succeeded, mirroring the match of the handler. -/
def parseOk (r : Except ParseError (Str × Bytes)) : Bool :=
  match r with
  | .ok _ => true
  | .error _ => false

/-- Request line bytes used by the header-count family of requests. -/
def reqLineBytes : Bytes := asciiBytes "GET / HTTP/1.1\r\n"

/-- One well-formed header line, A colon space b CR LF. -/
def hdrBytes : Bytes := asciiBytes "A: b\r\n"

/-- A well-formed request whose header section consists of n copies of the
same header line, terminated by an empty line. -/
def c10Request (n : Nat) : Bytes :=
  reqLineBytes ++ (List.replicate n hdrBytes).flatten ++ [13, 10]

/-- Route configuration used by the concrete witnesses. -/
def cfgW : RouteConfig :=
  { default_backend := "B0".toList
    routes := [("/api".toList, "A1".toList), ("/api/v1".toList, "A2".toList)]
    rewrite_paths := false }

theorem utf8EncodeChar_ne_nil (c : Char) : utf8EncodeChar c ≠ [] := by
  simp only [utf8EncodeChar]
  split <;> try split <;> try split
  all_goals simp

theorem byteLen_nil : byteLen [] = 0 := by simp [byteLen, utf8Encode]

theorem utf8Encode_append (a b : Str) : utf8Encode (a ++ b) = utf8Encode a ++ utf8Encode b := by
  simp [utf8Encode]

theorem byteLen_eq_zero {s : Str} (h : byteLen s = 0) : s = [] := by
  cases s with
  | nil => rfl
  | cons c t =>
    exfalso
    have : utf8Encode (c :: t) = utf8EncodeChar c ++ utf8Encode t := by
      simp [utf8Encode]
    rw [byteLen, this, List.length_append] at h
    have hne := utf8EncodeChar_ne_nil c
    have : utf8EncodeChar c = [] := List.length_eq_zero.mp (by omega)
    exact hne this

theorem byteLen_le_of_prefix {s t : Str} (h : s <+: t) : byteLen s ≤ byteLen t := by
  obtain ⟨r, rfl⟩ := h
  rw [byteLen, byteLen, utf8Encode_append, List.length_append]
  omega

theorem eq_of_prefix_byteLen {s t : Str} (h : s <+: t) (hl : byteLen s = byteLen t) : s = t := by
  obtain ⟨r, rfl⟩ := h
  rw [byteLen, byteLen, utf8Encode_append, List.length_append] at hl
  have : byteLen r = 0 := by rw [byteLen]; omega
  rw [byteLen_eq_zero this, List.append_nil]

theorem eq_of_prefix_prefix_byteLen {k k2 path : Str} (h1 : k <+: path) (h2 : k2 <+: path)
    (hl : byteLen k = byteLen k2) : k = k2 := by
  rcases List.prefix_or_prefix_of_prefix h1 h2 with h | h
  · exact eq_of_prefix_byteLen h hl
  · exact (eq_of_prefix_byteLen h hl.symm).symm

theorem lookupRoute_none {l : List (Str × Str)} {path : Str}
    (h : ∀ kv ∈ l, kv.1 ≠ path) : lookupRoute l path = none := by
  induction l with
  | nil => rfl
  | cons kv rest ih =>
    obtain ⟨k, v⟩ := kv
    have hk : k ≠ path := h (k, v) (List.mem_cons_self _ _)
    simp only [lookupRoute, if_neg hk]
    exact ih fun kv hm => h kv (List.mem_cons_of_mem _ hm)

theorem lookupRoute_mem {l : List (Str × Str)} {k b : Str}
    (hnd : (l.map Prod.fst).Nodup) (hmem : (k, b) ∈ l) : lookupRoute l k = some b := by
  induction l with
  | nil => cases hmem
  | cons kv rest ih =>
    obtain ⟨k0, v0⟩ := kv
    rw [List.map_cons, List.nodup_cons] at hnd
    rcases List.mem_cons.mp hmem with heq | htail
    · obtain ⟨rfl, rfl⟩ := Prod.mk.injEq .. ▸ heq
      simp [lookupRoute]
    · by_cases hk : k0 = k
      · exfalso
        subst hk
        exact hnd.1 (List.mem_map.mpr ⟨(k0, b), htail, rfl⟩)
      · simp only [lookupRoute, if_neg hk]
        exact ih hnd.2 htail

theorem assoc_nodup_val {l : List (Str × Str)} (hnd : (l.map Prod.fst).Nodup)
    {k b b2 : Str} (h1 : (k, b) ∈ l) (h2 : (k, b2) ∈ l) : b = b2 := by
  induction l with
  | nil => cases h1
  | cons kv rest ih =>
    rw [List.map_cons, List.nodup_cons] at hnd
    rcases List.mem_cons.mp h1 with he1 | ht1 <;> rcases List.mem_cons.mp h2 with he2 | ht2
    · rw [← he1] at he2; exact (Prod.mk.injEq .. ▸ he2.symm).2
    · exfalso; rw [← he1] at hnd; exact hnd.1 (List.mem_map.mpr ⟨(k, b2), ht2, rfl⟩)
    · exfalso; rw [← he2] at hnd; exact hnd.1 (List.mem_map.mpr ⟨(k, b), ht1, rfl⟩)
    · exact ih hnd.2 ht1 ht2

theorem lmFold_snd_ge (path : Str) :
    ∀ (l : List (Str × Str)) (bm bb : Str), byteLen bm ≤ byteLen (longestMatchFold path l bm bb).2 := by
  intro l
  induction l with
  | nil => intro bm bb; simp [longestMatchFold]
  | cons kv rest ih =>
    intro bm bb
    obtain ⟨k, b⟩ := kv
    simp only [longestMatchFold]
    split
    · next h => exact le_trans (le_of_lt h.2) (ih k b)
    · exact ih bm bb

theorem lmFold_ge_mem (path : Str) :
    ∀ (l : List (Str × Str)) (bm bb k b : Str), (k, b) ∈ l → k <+: path →
      byteLen k ≤ byteLen (longestMatchFold path l bm bb).2 := by
  intro l
  induction l with
  | nil => intro bm bb k b hmem; cases hmem
  | cons kv rest ih =>
    intro bm bb k b hmem hpre
    obtain ⟨k0, b0⟩ := kv
    rcases List.mem_cons.mp hmem with heq | htail
    · obtain ⟨rfl, rfl⟩ := Prod.mk.injEq .. ▸ heq
      simp only [longestMatchFold]
      split
      · next h => exact lmFold_snd_ge path rest k b
      · next h =>
        have hKp : k.isPrefixOf path := List.isPrefixOf_iff_prefix.mpr hpre
        have : byteLen k ≤ byteLen bm := by
          by_contra hc
          exact h ⟨hKp, by omega⟩
        exact le_trans this (lmFold_snd_ge path rest bm bb)
    · simp only [longestMatchFold]
      split
      · exact ih k0 b0 k b htail hpre
      · exact ih bm bb k b htail hpre

theorem lmFold_result (path : Str) :
    ∀ (l : List (Str × Str)) (bm bb : Str),
      longestMatchFold path l bm bb = (bb, bm) ∨
      ∃ k b, (k, b) ∈ l ∧ k <+: path ∧ longestMatchFold path l bm bb = (b, k) := by
  intro l
  induction l with
  | nil => intro bm bb; left; rfl
  | cons kv rest ih =>
    intro bm bb
    obtain ⟨k0, b0⟩ := kv
    simp only [longestMatchFold]
    split
    · next h =>
      rcases ih k0 b0 with hres | ⟨k, b, hm, hp, he⟩
      · right
        exact ⟨k0, b0, List.mem_cons_self _ _, List.isPrefixOf_iff_prefix.mp h.1, hres⟩
      · right
        exact ⟨k, b, List.mem_cons_of_mem _ hm, hp, he⟩
    · rcases ih bm bb with hres | ⟨k, b, hm, hp, he⟩
      · left; exact hres
      · right; exact ⟨k, b, List.mem_cons_of_mem _ hm, hp, he⟩

theorem lmFold_no_match (path : Str) :
    ∀ (l : List (Str × Str)) (bm bb : Str), (∀ kv ∈ l, ¬ kv.1 <+: path) →
      longestMatchFold path l bm bb = (bb, bm) := by
  intro l
  induction l with
  | nil => intro bm bb _; rfl
  | cons kv rest ih =>
    intro bm bb h
    obtain ⟨k0, b0⟩ := kv
    have hnp : ¬ k0 <+: path := h (k0, b0) (List.mem_cons_self _ _)
    simp only [longestMatchFold]
    split
    · next hc =>
        have hcp := List.isPrefixOf_iff_prefix.mp hc.1
        exact absurd hcp hnp
    · exact ih bm bb fun kv hm => h kv (List.mem_cons_of_mem _ hm)

/-- C1: for a path that is not an exact route key, get_backend_and_prefix
returns the backend and key of the route whose key is the longest (in
bytes) among those that are a list prefix of the path, and returns the
default backend with an empty match when no configured key prefixes the
path.  Keys come from RouteConfig::new, hence are distinct (HashMap) and
start with a slash. -/
theorem resolve_longest_match (cfg : RouteConfig) (path : Str)
    (hnd : (cfg.routes.map Prod.fst).Nodup)
    (hslash : ∀ kv ∈ cfg.routes, kv.1.head? = some '/')
    (hne : ∀ kv ∈ cfg.routes, kv.1 ≠ path) :
    (∀ k b, (k, b) ∈ cfg.routes → k <+: path →
        (∀ kv ∈ cfg.routes, kv.1 <+: path → byteLen kv.1 ≤ byteLen k) →
        getBackendAndRoute cfg path = (b, k)) ∧
    ((∀ kv ∈ cfg.routes, ¬ kv.1 <+: path) →
        getBackendAndRoute cfg path = (cfg.default_backend, [])) := by
  have hlk : lookupRoute cfg.routes path = none := lookupRoute_none hne
  constructor
  · intro k b hmem hpre hmax
    rw [getBackendAndRoute, hlk]
    rcases lmFold_result path cfg.routes [] cfg.default_backend with hres | ⟨k2, b2, hm2, hp2, he2⟩
    · exfalso
      have hge := lmFold_ge_mem path cfg.routes [] cfg.default_backend k b hmem hpre
      rw [hres] at hge
      simp only [byteLen_nil] at hge
      have hk0 : k = [] := byteLen_eq_zero (Nat.le_zero.mp hge)
      have := hslash (k, b) hmem
      rw [hk0] at this
      simp at this
    · have h1 : byteLen k2 ≤ byteLen k := hmax (k2, b2) hm2 hp2
      have h2 : byteLen k ≤ byteLen k2 := by
        have hge := lmFold_ge_mem path cfg.routes [] cfg.default_backend k b hmem hpre
        rw [he2] at hge
        exact hge
      have hk : k = k2 := eq_of_prefix_prefix_byteLen hpre hp2 (Nat.le_antisymm h2 h1)
      subst hk
      have hb : b = b2 := assoc_nodup_val hnd hmem hm2
      rw [he2, hb]
  · intro hnone
    rw [getBackendAndRoute, hlk]
    exact lmFold_no_match path cfg.routes [] cfg.default_backend hnone

/-- Witness for C1 on a concrete table: the longest of two matching keys
wins, and an unmatched path falls back to the default backend. -/
theorem resolve_longest_match_witness :
    getBackendAndRoute cfgW ("/api/v1/users".toList) = ("A2".toList, "/api/v1".toList) ∧
    getBackendAndRoute cfgW ("/unknown".toList) = ("B0".toList, []) := by
  constructor
  · exact (resolve_longest_match cfgW ("/api/v1/users".toList) (by decide) (by decide)
      (by decide)).1 ("/api/v1".toList) ("A2".toList) (by decide) (by decide) (by decide)
  · exact (resolve_longest_match cfgW ("/unknown".toList) (by decide) (by decide)
      (by decide)).2 (by decide)

/-- C2: for a path equal to a configured route key, get_backend_and_prefix
returns that route together with the path itself as matched route key,
whatever other routes exist. -/
theorem resolve_exact_match (cfg : RouteConfig) (path b : Str)
    (hnd : (cfg.routes.map Prod.fst).Nodup)
    (hmem : (path, b) ∈ cfg.routes) :
    getBackendAndRoute cfg path = (b, path) := by
  rw [getBackendAndRoute, lookupRoute_mem hnd hmem]

/-- Witness for C2: the exact key wins although a shorter key also
prefixes the path. -/
theorem resolve_exact_match_witness :
    getBackendAndRoute cfgW ("/api/v1".toList) = ("A2".toList, "/api/v1".toList) := by
  exact resolve_exact_match cfgW ("/api/v1".toList) ("A2".toList) (by decide) (by decide)

theorem splitWhitespace_nil : splitWhitespace ([] : Str) = [] := by
  simp [splitWhitespace, splitWhitespaceAux]

theorem firstLine_nil : firstLine ([] : Str) = [] := by
  simp [firstLine]

/-- C3: when the first line of the lossily decoded buffer splits into
exactly method, path and version, the path starts with the non-empty
matched route key, and a line terminator exists, rewrite_request_path
replaces the first line by method, the stripped path (a slash prepended
when the suffix is empty or does not start with a slash) and version,
keeping everything from the first terminator byte onward. -/
theorem rewrite_strips_route (data : Bytes) (op mpfx m p v : Str) (i : Nat)
    (hm : mpfx ≠ [])
    (hsplit : splitWhitespace (firstLine (utf8Lossy data)) = [m, p, v])
    (hstart : mpfx.isPrefixOf p)
    (hterm : List.findIdx? (fun b => b == 13 || b == 10) data = some i) :
    rewrite_request_path data op mpfx =
      utf8Encode (m ++ ' ' :: (if p.drop mpfx.length = [] ∨ (p.drop mpfx.length).head? ≠ some '/'
        then '/' :: p.drop mpfx.length else p.drop mpfx.length) ++ ' ' :: v) ++ data.drop i := by
  have hne : utf8Lossy data ≠ [] := by
    intro h0
    rw [h0, firstLine_nil, splitWhitespace_nil] at hsplit
    cases hsplit
  simp only [rewrite_request_path, if_neg hm, if_neg hne, hsplit, hterm, hstart, if_true]

/-- Witness for C3: stripping the matched key from a path equal to it
yields the root path, and stripping it from a longer path yields the
suffix. -/
theorem rewrite_strips_route_witness :
    rewrite_request_path (asciiBytes "GET /api HTTP/1.1\r\nH: x\r\n\r\n") ("/api".toList) ("/api".toList)
      = asciiBytes "GET / HTTP/1.1\r\nH: x\r\n\r\n" ∧
    rewrite_request_path (asciiBytes "GET /api/v1/x HTTP/1.1\r\n\r\n") ("/api/v1/x".toList) ("/api".toList)
      = asciiBytes "GET /v1/x HTTP/1.1\r\n\r\n" := by
  constructor
  · have h := rewrite_strips_route (asciiBytes "GET /api HTTP/1.1\r\nH: x\r\n\r\n")
      ("/api".toList) ("/api".toList) ("GET".toList) ("/api".toList) ("HTTP/1.1".toList) 17
      (by decide) (by decide) (by decide) (by decide)
    exact h.trans (by decide)
  · have h := rewrite_strips_route (asciiBytes "GET /api/v1/x HTTP/1.1\r\n\r\n")
      ("/api/v1/x".toList) ("/api".toList) ("GET".toList) ("/api/v1/x".toList) ("HTTP/1.1".toList) 22
      (by decide) (by decide) (by decide) (by decide)
    exact h.trans (by decide)

/-- C4: whatever the buffer and matched route key, every byte of the
buffer from the first line terminator onward reappears unchanged as the
tail of the result of rewrite_request_path. -/
theorem rewrite_preserves_tail (data : Bytes) (op mpfx : Str) (i : Nat)
    (hterm : List.findIdx? (fun b => b == 13 || b == 10) data = some i) :
    ∃ pre, rewrite_request_path data op mpfx = pre ++ data.drop i := by
  by_cases hm : mpfx = []
  · exact ⟨data.take i, by simp [rewrite_request_path, hm, List.take_append_drop]⟩
  by_cases hne : utf8Lossy data = []
  · exact ⟨data.take i, by simp [rewrite_request_path, hm, hne, List.take_append_drop]⟩
  rcases hsp : splitWhitespace (firstLine (utf8Lossy data)) with _ | ⟨m, _ | ⟨p, _ | ⟨v, _ | ⟨w, t⟩⟩⟩⟩
  · exact ⟨data.take i, by simp [rewrite_request_path, hm, hne, hsp, List.take_append_drop]⟩
  · exact ⟨data.take i, by simp [rewrite_request_path, hm, hne, hsp, List.take_append_drop]⟩
  · exact ⟨data.take i, by simp [rewrite_request_path, hm, hne, hsp, List.take_append_drop]⟩
  · simp only [rewrite_request_path, if_neg hm, if_neg hne, hsp, hterm]
    exact ⟨_, rfl⟩
  · exact ⟨data.take i, by simp [rewrite_request_path, hm, hne, hsp, List.take_append_drop]⟩

/-- Witness for C4 on a concrete request. -/
theorem rewrite_preserves_tail_witness :
    ∃ pre, rewrite_request_path (asciiBytes "GET /api HTTP/1.1\r\nHost: h\r\n\r\nBODY")
      ("/api".toList) ("/api".toList) = pre ++ (asciiBytes "GET /api HTTP/1.1\r\nHost: h\r\n\r\nBODY").drop 17 :=
  rewrite_preserves_tail (asciiBytes "GET /api HTTP/1.1\r\nHost: h\r\n\r\nBODY")
    ("/api".toList) ("/api".toList) 17 (by decide)

/-- C5: rewrite_request_path returns its input unchanged when the matched
route key is empty, when the first line does not split into exactly three
whitespace separated tokens, and when no carriage return or line feed
occurs in the buffer. -/
theorem rewrite_identity_cases (data : Bytes) (op mpfx : Str) :
    (mpfx = [] → rewrite_request_path data op mpfx = data) ∧
    ((splitWhitespace (firstLine (utf8Lossy data))).length ≠ 3 →
        rewrite_request_path data op mpfx = data) ∧
    (List.findIdx? (fun b => b == 13 || b == 10) data = none →
        rewrite_request_path data op mpfx = data) := by
  refine ⟨fun hm => by simp [rewrite_request_path, hm], ?_, ?_⟩
  · intro h3
    by_cases hm : mpfx = []
    · simp [rewrite_request_path, hm]
    by_cases hne : utf8Lossy data = []
    · simp [rewrite_request_path, hm, hne]
    rcases hsp : splitWhitespace (firstLine (utf8Lossy data)) with _ | ⟨m, _ | ⟨p, _ | ⟨v, _ | ⟨w, t⟩⟩⟩⟩
    · simp [rewrite_request_path, hm, hne, hsp]
    · simp [rewrite_request_path, hm, hne, hsp]
    · simp [rewrite_request_path, hm, hne, hsp]
    · exact absurd (by rw [hsp]; rfl) h3
    · simp [rewrite_request_path, hm, hne, hsp]
  · intro hnone
    by_cases hm : mpfx = []
    · simp [rewrite_request_path, hm]
    by_cases hne : utf8Lossy data = []
    · simp [rewrite_request_path, hm, hne]
    rcases hsp : splitWhitespace (firstLine (utf8Lossy data)) with _ | ⟨m, _ | ⟨p, _ | ⟨v, _ | ⟨w, t⟩⟩⟩⟩
    · simp [rewrite_request_path, hm, hne, hsp]
    · simp [rewrite_request_path, hm, hne, hsp]
    · simp [rewrite_request_path, hm, hne, hsp]
    · simp [rewrite_request_path, hm, hne, hsp, hnone]
    · simp [rewrite_request_path, hm, hne, hsp]

/-- Witness for C5: the three identity cases on concrete buffers. -/
theorem rewrite_identity_cases_witness :
    rewrite_request_path (asciiBytes "GET /api HTTP/1.1\r\n\r\n") ("/api".toList) []
      = asciiBytes "GET /api HTTP/1.1\r\n\r\n" ∧
    rewrite_request_path (asciiBytes "GETONLY\r\n\r\n") ("/api".toList) ("/api".toList)
      = asciiBytes "GETONLY\r\n\r\n" ∧
    rewrite_request_path (asciiBytes "GET /api HTTP/1.1") ("/api".toList) ("/api".toList)
      = asciiBytes "GET /api HTTP/1.1" :=
  ⟨(rewrite_identity_cases (asciiBytes "GET /api HTTP/1.1\r\n\r\n") ("/api".toList) []).1 rfl,
   (rewrite_identity_cases (asciiBytes "GETONLY\r\n\r\n") ("/api".toList) ("/api".toList)).2.1 (by decide),
   (rewrite_identity_cases (asciiBytes "GET /api HTTP/1.1") ("/api".toList) ("/api".toList)).2.2 (by decide)⟩

theorem fhe_ge_4 : ∀ {l : Bytes} {p : Nat}, find_header_end l = some p → 4 ≤ p := by
  intro l
  induction l with
  | nil => intro p h; cases h
  | cons b rest ih =>
    intro p h
    simp only [find_header_end] at h
    split at h
    · cases h; omega
    · rcases Option.map_eq_some'.mp h with ⟨q, hq, rfl⟩
      have := ih hq
      omega

theorem fhe_le_length : ∀ {l : Bytes} {p : Nat}, find_header_end l = some p → p ≤ l.length := by
  intro l
  induction l with
  | nil => intro p h; cases h
  | cons b rest ih =>
    intro p h
    simp only [find_header_end] at h
    split at h
    · next hpre =>
      cases h
      have hpp := List.isPrefixOf_iff_prefix.mp hpre
      simpa using hpp.length_le
    · rcases Option.map_eq_some'.mp h with ⟨q, hq, rfl⟩
      have := ih hq
      simp
      omega

theorem fhe_short {l : Bytes} (h : l.length < 4) : find_header_end l = none := by
  induction l with
  | nil => rfl
  | cons b rest ih =>
    simp only [find_header_end]
    have hnp : ¬ ([13, 10, 13, 10] : Bytes).isPrefixOf (b :: rest) = true := by
      intro hc
      have hcp := List.isPrefixOf_iff_prefix.mp hc
      have := hcp.length_le
      simp at this h
      omega
    rw [if_neg hnp, ih (by simp at h ⊢; omega)]
    rfl

theorem fhe_take : ∀ (l : Bytes) (t : Nat),
    find_header_end (l.take t) =
      match find_header_end l with
      | some p => if p ≤ t then some p else none
      | none => none := by
  intro l
  induction l with
  | nil => intro t; simp [find_header_end]
  | cons b rest ih =>
    intro t
    cases t with
    | zero =>
      rw [List.take_zero]
      cases hq : find_header_end (b :: rest) with
      | none => rfl
      | some p =>
        have h4 := fhe_ge_4 hq
        show none = if p ≤ 0 then some p else none
        rw [if_neg (by omega)]
    | succ t1 =>
      rw [List.take_succ_cons]
      by_cases hpre : ([13, 10, 13, 10] : Bytes).isPrefixOf (b :: rest) = true
      · have hfind : find_header_end (b :: rest) = some 4 := by
          simp only [find_header_end, if_pos hpre]
        rw [hfind]
        show find_header_end (b :: rest.take t1) = if 4 ≤ t1 + 1 then some 4 else none
        by_cases ht : 4 ≤ t1 + 1
        · have hpre2 : ([13, 10, 13, 10] : Bytes).isPrefixOf (b :: rest.take t1) = true := by
            rw [ List.isPrefixOf_iff_prefix]
            have he : (b :: rest.take t1) = (b :: rest).take (t1 + 1) := by rw [List.take_succ_cons]
            rw [he, List.prefix_take_iff]
            have hpp := List.isPrefixOf_iff_prefix.mp hpre
            exact ⟨hpp, by simpa using ht⟩
          simp only [find_header_end, if_pos hpre2, if_pos ht]
        · have hshort : (b :: rest.take t1).length < 4 := by
            simp only [List.length_cons, List.length_take]
            omega
          rw [fhe_short hshort, if_neg ht]
      · have hfind : find_header_end (b :: rest) = (find_header_end rest).map (· + 1) := by
          simp only [find_header_end, if_neg hpre]
        have hpre2 : ¬ ([13, 10, 13, 10] : Bytes).isPrefixOf (b :: rest.take t1) = true := by
          intro hc
          apply hpre
          rw [ List.isPrefixOf_iff_prefix] at hc ⊢
          have he : (b :: rest.take t1) = (b :: rest).take (t1 + 1) := by rw [List.take_succ_cons]
          rw [he, List.prefix_take_iff] at hc
          exact hc.1
        have hstep : find_header_end (b :: rest.take t1) = (find_header_end (rest.take t1)).map (· + 1) := by
          simp only [find_header_end, if_neg hpre2]
        rw [hstep, ih t1, hfind]
        cases hq : find_header_end rest with
        | none => rfl
        | some q =>
          show Option.map (· + 1) (if q ≤ t1 then some q else none) =
            if q + 1 ≤ t1 + 1 then some (q + 1) else none
          by_cases hqt : q ≤ t1
          · rw [if_pos hqt, if_pos (by omega), Option.map_some']
          · rw [if_neg hqt, if_neg (by omega), Option.map_none']

theorem fhe_take_of_le {l : Bytes} {p t : Nat} (h : find_header_end l = some p) (hle : p ≤ t) :
    find_header_end (l.take t) = some p := by
  rw [fhe_take, h]
  exact if_pos hle

theorem fhe_take_none {l : Bytes} {t : Nat} (h : find_header_end l = none) :
    find_header_end (l.take t) = none := by
  rw [fhe_take, h]

theorem fhe_take_none_of_lt {l : Bytes} {p t : Nat} (h : find_header_end l = some p) (hlt : t < p) :
    find_header_end (l.take t) = none := by
  rw [fhe_take, h]
  exact if_neg (by omega)

theorem writeChunk_length {buffer : Bytes} {total : Nat} {data : Bytes}
    (h : total + data.length ≤ buffer.length) :
    (writeChunk buffer total data).length = buffer.length := by
  simp only [writeChunk, List.length_append, List.length_take, List.length_drop]
  omega

theorem writeChunk_take {buffer : Bytes} {total : Nat} {data : Bytes}
    (h : total ≤ buffer.length) :
    (writeChunk buffer total data).take (total + data.length) = buffer.take total ++ data := by
  have hlen : (buffer.take total).length = total := by
    rw [List.length_take]; omega
  have key : ∀ (l1 l2 : Bytes), l1.length = total →
      (l1 ++ l2).take (total + data.length) = l1 ++ l2.take data.length := by
    intro l1 l2 h1
    rw [← h1, List.take_append]
  rw [writeChunk, List.append_assoc, key _ _ hlen,
    List.take_append_of_le_length (le_refl _), List.take_length]

theorem resizeIfFull_take {buffer : Bytes} {total : Nat} (h : total ≤ buffer.length) :
    (resizeIfFull buffer total).take total = buffer.take total := by
  rw [resizeIfFull]
  split
  · rw [List.take_append_of_le_length h]
  · rfl

theorem resizeIfFull_lt {buffer : Bytes} {total : Nat}
    (h0 : 0 < buffer.length) (h : total ≤ buffer.length) :
    total < (resizeIfFull buffer total).length := by
  rw [resizeIfFull]
  split
  · next hful => simp only [List.length_append, List.length_replicate]; omega
  · next hlt => omega

theorem nextChunks_flatten {c : Bytes} {n : Nat} {rest : List Bytes} (h : n ≤ c.length) :
    c.take n ++ (nextChunks c n rest).flatten = c ++ rest.flatten := by
  rw [nextChunks]
  split
  · rw [List.flatten_cons, ← List.append_assoc, List.take_append_drop]
  · next hge =>
    have : n = c.length := by omega
    rw [this, List.take_length]

theorem nextChunks_size {c : Bytes} {n : Nat} {rest : List Bytes} (h1 : 1 ≤ n) (h2 : n ≤ c.length) :
    chunksSize (nextChunks c n rest) < chunksSize (c :: rest) := by
  rw [nextChunks, chunksSize]
  split
  · rw [chunksSize, List.length_drop]
    omega
  · omega

theorem nextChunks_ne_nil {c : Bytes} {n : Nat} {rest : List Bytes}
    (h : ∀ x ∈ c :: rest, x ≠ []) (hn : n < c.length) :
    ∀ x ∈ nextChunks c n rest, x ≠ [] := by
  intro x hx
  rw [nextChunks, if_pos hn] at hx
  rcases List.mem_cons.mp hx with rfl | hm
  · intro hc
    have := List.length_drop n c ▸ congrArg List.length hc
    simp at this
    omega
  · exact h x (List.mem_cons_of_mem _ hm)

theorem nextChunks_ne_nil_all {c : Bytes} {n : Nat} {rest : List Bytes}
    (h : ∀ x ∈ c :: rest, x ≠ []) :
    ∀ x ∈ nextChunks c n rest, x ≠ [] := by
  intro x hx
  rw [nextChunks] at hx
  split at hx
  · next hn => exact nextChunks_ne_nil h hn x (by rw [nextChunks, if_pos hn]; exact hx)
  · exact h x (List.mem_cons_of_mem _ hx)

theorem chunkStep_take {buffer : Bytes} {total : Nat} {c : Bytes} {rest : List Bytes} {n : Nat}
    (htot : total ≤ buffer.length) (hn : n ≤ c.length) :
    (writeChunk buffer total (c.take n)).take (total + n) =
      (buffer.take total ++ (c :: rest).flatten).take (total + n) := by
  have hlen : (c.take n).length = n := by rw [List.length_take]; omega
  have h1 : (writeChunk buffer total (c.take n)).take (total + n) = buffer.take total ++ c.take n := by
    have := @writeChunk_take buffer total (c.take n) htot
    rw [hlen] at this
    exact this
  have hlen2 : (buffer.take total).length = total := by rw [List.length_take]; omega
  have key : ∀ (l1 l2 : Bytes), l1.length = total → (l1 ++ l2).take (total + n) = l1 ++ l2.take n := by
    intro l1 l2 hl
    rw [← hl, List.take_append]
  rw [h1, List.flatten_cons, key _ _ hlen2, List.take_append_of_le_length hn]

theorem resizeIfFull_le (buffer : Bytes) (total : Nat) :
    buffer.length ≤ (resizeIfFull buffer total).length := by
  rw [resizeIfFull]
  split
  · simp only [List.length_append, List.length_replicate]; omega
  · exact le_refl _

theorem loopStep_F {buffer : Bytes} {total : Nat} {c : Bytes} {rest : List Bytes} {n : Nat}
    (htot : total ≤ buffer.length) (hn : n ≤ c.length) (hcap : n ≤ buffer.length - total) :
    (resizeIfFull (writeChunk buffer total (c.take n)) (total + n)).take (total + n)
        ++ (nextChunks c n rest).flatten
      = buffer.take total ++ (c :: rest).flatten := by
  have hlen : (c.take n).length = n := by rw [List.length_take]; omega
  have hblen : (writeChunk buffer total (c.take n)).length = buffer.length := by
    apply writeChunk_length
    omega
  have htot1 : total + n ≤ (writeChunk buffer total (c.take n)).length := by omega
  rw [resizeIfFull_take htot1]
  have h1 : (writeChunk buffer total (c.take n)).take (total + n) = buffer.take total ++ c.take n := by
    have h2 := @writeChunk_take buffer total (c.take n) htot
    rw [hlen] at h2
    exact h2
  rw [h1, List.append_assoc, nextChunks_flatten hn, List.flatten_cons]

/-- The read loop never succeeds and fails with the early-close error when
the stream as a whole contains no header terminator. -/
theorem parseLoop_no_terminator :
    ∀ (fuel : Nat) (buffer : Bytes) (total : Nat) (chunks : List Bytes),
      total ≤ buffer.length →
      find_header_end (buffer.take total ++ chunks.flatten) = none →
      parseLoopFuel fuel buffer total chunks = .error .connectionClosedEarly := by
  intro fuel
  induction fuel with
  | zero => intro buffer total chunks _ _; rfl
  | succ f ih =>
    intro buffer total chunks htot hfind
    cases chunks with
    | nil => rfl
    | cons c rest =>
      simp only [parseLoopFuel]
      by_cases hn0 : min c.length (buffer.length - total) = 0
      · rw [if_pos hn0]
      · rw [if_neg hn0]
        set n := min c.length (buffer.length - total) with hn_def
        have hn_le : n ≤ c.length := Nat.min_le_left _ _
        have hn_cap : n ≤ buffer.length - total := Nat.min_le_right _ _
        have hacc : (writeChunk buffer total (c.take n)).take (total + n) =
            (buffer.take total ++ (c :: rest).flatten).take (total + n) := chunkStep_take htot hn_le
        have hfnone : find_header_end ((writeChunk buffer total (c.take n)).take (total + n)) = none := by
          rw [hacc]
          exact fhe_take_none hfind
        rw [hfnone]
        apply ih
        · have hblen : (writeChunk buffer total (c.take n)).length = buffer.length := by
            apply writeChunk_length
            have : (c.take n).length = n := by rw [List.length_take]; omega
            omega
          have := resizeIfFull_le (writeChunk buffer total (c.take n)) (total + n)
          omega
        · rw [loopStep_F htot hn_le hn_cap]
          exact hfind

/-- Whenever the read loop succeeds, the returned buffer is the bytes read
so far: a contiguous prefix of the client stream that contains a header
terminator. -/
theorem parseLoop_ok_shape :
    ∀ (fuel : Nat) (buffer : Bytes) (total : Nat) (chunks : List Bytes) (path : Str) (data : Bytes),
      total ≤ buffer.length →
      parseLoopFuel fuel buffer total chunks = .ok (path, data) →
      data <+: (buffer.take total ++ chunks.flatten) ∧ find_header_end data ≠ none := by
  intro fuel
  induction fuel with
  | zero =>
    intro buffer total chunks path data _ h
    simp [parseLoopFuel] at h
  | succ f ih =>
    intro buffer total chunks path data htot h
    cases chunks with
    | nil => simp [parseLoopFuel] at h
    | cons c rest =>
      simp only [parseLoopFuel] at h
      by_cases hn0 : min c.length (buffer.length - total) = 0
      · rw [if_pos hn0] at h
        simp at h
      · rw [if_neg hn0] at h
        set n := min c.length (buffer.length - total) with hn_def
        have hn_le : n ≤ c.length := Nat.min_le_left _ _
        have hn_cap : n ≤ buffer.length - total := Nat.min_le_right _ _
        have hblen : (writeChunk buffer total (c.take n)).length = buffer.length := by
          apply writeChunk_length
          have : (c.take n).length = n := by rw [List.length_take]; omega
          omega
        have htot1 : total + n ≤ (resizeIfFull (writeChunk buffer total (c.take n)) (total + n)).length := by
          have := resizeIfFull_le (writeChunk buffer total (c.take n)) (total + n)
          omega
        have hacc : (writeChunk buffer total (c.take n)).take (total + n) =
            (buffer.take total ++ (c :: rest).flatten).take (total + n) := chunkStep_take htot hn_le
        split at h
        · next pos hf =>
          split at h
          · next p2 hh =>
            simp only [Except.ok.injEq, Prod.mk.injEq] at h
            obtain ⟨rfl, rfl⟩ := h
            constructor
            · rw [hacc]
              exact List.take_prefix _ _
            · rw [hf]
              simp
          · next hh =>
            have hres := ih _ _ _ _ _ htot1 h
            rw [loopStep_F htot hn_le hn_cap] at hres
            exact hres
          · next hh => simp at h
        · next hf =>
          have hres := ih _ _ _ _ _ htot1 h
          rw [loopStep_F htot hn_le hn_cap] at hres
          exact hres

theorem parseLoopFuel_complete {f : Nat} {buffer : Bytes} {total : Nat} {c : Bytes} {rest : List Bytes}
    {pos : Nat} {path : Str}
    (hn0 : ¬ min c.length (buffer.length - total) = 0)
    (hf : find_header_end ((writeChunk buffer total
        (c.take (min c.length (buffer.length - total)))).take
          (total + min c.length (buffer.length - total))) = some pos)
    (hh : httparseModel ((writeChunk buffer total
        (c.take (min c.length (buffer.length - total)))).take pos) 64 = .complete path) :
    parseLoopFuel (f + 1) buffer total (c :: rest) =
      .ok (path, (writeChunk buffer total
        (c.take (min c.length (buffer.length - total)))).take
          (total + min c.length (buffer.length - total))) := by
  simp only [parseLoopFuel]
  rw [if_neg hn0]
  simp only [hf, hh]

theorem parseLoopFuel_failed {f : Nat} {buffer : Bytes} {total : Nat} {c : Bytes} {rest : List Bytes}
    {pos : Nat}
    (hn0 : ¬ min c.length (buffer.length - total) = 0)
    (hf : find_header_end ((writeChunk buffer total
        (c.take (min c.length (buffer.length - total)))).take
          (total + min c.length (buffer.length - total))) = some pos)
    (hh : httparseModel ((writeChunk buffer total
        (c.take (min c.length (buffer.length - total)))).take pos) 64 = .failed) :
    parseLoopFuel (f + 1) buffer total (c :: rest) = .error .malformedRequest := by
  simp only [parseLoopFuel]
  rw [if_neg hn0]
  simp only [hf, hh]

theorem parseLoopFuel_continue_none {f : Nat} {buffer : Bytes} {total : Nat} {c : Bytes} {rest : List Bytes}
    (hn0 : ¬ min c.length (buffer.length - total) = 0)
    (hf : find_header_end ((writeChunk buffer total
        (c.take (min c.length (buffer.length - total)))).take
          (total + min c.length (buffer.length - total))) = none) :
    parseLoopFuel (f + 1) buffer total (c :: rest) =
      parseLoopFuel f
        (resizeIfFull (writeChunk buffer total (c.take (min c.length (buffer.length - total))))
          (total + min c.length (buffer.length - total)))
        (total + min c.length (buffer.length - total))
        (nextChunks c (min c.length (buffer.length - total)) rest) := by
  simp only [parseLoopFuel]
  rw [if_neg hn0]
  simp only [hf]

/-- When the stream contains a header terminator not yet inside the
accumulated bytes, the read loop reaches it: the request parsed from the
header region at the first terminator decides the outcome, completion
returning that path together with a prefix of the stream covering the
header region, a parse failure returning the malformed-request error. -/
theorem parseLoop_terminator :
    ∀ (fuel : Nat) (buffer : Bytes) (total : Nat) (chunks : List Bytes) (posEnd : Nat),
      chunksSize chunks < fuel →
      total < buffer.length →
      (∀ x ∈ chunks, x ≠ []) →
      find_header_end (buffer.take total ++ chunks.flatten) = some posEnd →
      total < posEnd →
      (∀ path, httparseModel ((buffer.take total ++ chunks.flatten).take posEnd) 64 = .complete path →
          ∃ t, posEnd ≤ t ∧
            parseLoopFuel fuel buffer total chunks =
              .ok (path, (buffer.take total ++ chunks.flatten).take t)) ∧
      (httparseModel ((buffer.take total ++ chunks.flatten).take posEnd) 64 = .failed →
          parseLoopFuel fuel buffer total chunks = .error .malformedRequest) := by
  intro fuel
  induction fuel with
  | zero =>
    intro buffer total chunks posEnd hsz
    exact absurd hsz (Nat.not_lt_zero _)
  | succ f ih =>
    intro buffer total chunks posEnd hsz htot hnonempty hfind hpos
    cases chunks with
    | nil =>
      exfalso
      have h1 := fhe_le_length hfind
      rw [List.length_append, List.length_take] at h1
      simp at h1
      omega
    | cons c rest =>
      have hc_ne : c ≠ [] := hnonempty c (List.mem_cons_self _ _)
      have hc_pos : 0 < c.length := List.length_pos.mpr hc_ne
      have hn0 : ¬ (min c.length (buffer.length - total) = 0) := by omega
      set n := min c.length (buffer.length - total) with hn_def
      have hn_le : n ≤ c.length := Nat.min_le_left _ _
      have hn_cap : n ≤ buffer.length - total := Nat.min_le_right _ _
      have hn1 : 1 ≤ n := by omega
      have htotle : total ≤ buffer.length := le_of_lt htot
      have hblen : (writeChunk buffer total (c.take n)).length = buffer.length := by
        apply writeChunk_length
        have : (c.take n).length = n := by rw [List.length_take]; omega
        omega
      have hacc : (writeChunk buffer total (c.take n)).take (total + n) =
          (buffer.take total ++ (c :: rest).flatten).take (total + n) := chunkStep_take htotle hn_le
      by_cases hple : posEnd ≤ total + n
      · have hf : find_header_end ((writeChunk buffer total (c.take n)).take (total + n)) = some posEnd := by
          rw [hacc]
          exact fhe_take_of_le hfind hple
        have hslice : (writeChunk buffer total (c.take n)).take posEnd =
            (buffer.take total ++ (c :: rest).flatten).take posEnd := by
          have h1 : (writeChunk buffer total (c.take n)).take posEnd =
              ((writeChunk buffer total (c.take n)).take (total + n)).take posEnd := by
            rw [List.take_take, Nat.min_eq_left hple]
          have h2 : ((buffer.take total ++ (c :: rest).flatten).take (total + n)).take posEnd =
              (buffer.take total ++ (c :: rest).flatten).take posEnd := by
            rw [List.take_take, Nat.min_eq_left hple]
          rw [h1, hacc, h2]
        constructor
        · intro path hcomp
          refine ⟨total + n, hple, ?_⟩
          have hh : httparseModel ((writeChunk buffer total (c.take n)).take posEnd) 64 = .complete path := by
            rw [hslice]
            exact hcomp
          rw [parseLoopFuel_complete hn0 hf hh, hacc]
        · intro hfail
          have hh : httparseModel ((writeChunk buffer total (c.take n)).take posEnd) 64 = .failed := by
            rw [hslice]
            exact hfail
          exact parseLoopFuel_failed hn0 hf hh
      · have hf : find_header_end ((writeChunk buffer total (c.take n)).take (total + n)) = none := by
          rw [hacc]
          exact fhe_take_none_of_lt hfind (by omega)
        have hFeq := @loopStep_F buffer total c rest n htotle hn_le hn_cap
        have hszlt := @nextChunks_size c n rest hn1 hn_le
        have hsz2 : chunksSize (nextChunks c n rest) < f := by omega
        have htot2 : total + n < (resizeIfFull (writeChunk buffer total (c.take n)) (total + n)).length := by
          apply resizeIfFull_lt
          · omega
          · omega
        have hne2 : ∀ x ∈ nextChunks c n rest, x ≠ [] := nextChunks_ne_nil_all hnonempty
        have hfind2 : find_header_end
            ((resizeIfFull (writeChunk buffer total (c.take n)) (total + n)).take (total + n)
              ++ (nextChunks c n rest).flatten) = some posEnd := by
          rw [hFeq]
          exact hfind
        have hih := ih (resizeIfFull (writeChunk buffer total (c.take n)) (total + n)) (total + n)
          (nextChunks c n rest) posEnd hsz2 htot2 hne2 hfind2 (by omega)
        rw [hFeq] at hih
        rw [parseLoopFuel_continue_none hn0 hf]
        exact hih

/-- A request delivered in one chunk that fits the initial buffer and whose
header region parses completely is returned whole. -/
theorem parseLoop_single (f : Nat) (buffer c : Bytes) (pos : Nat) (path : Str)
    (hlen : c.length ≤ buffer.length) (hne : c ≠ [])
    (hfind : find_header_end c = some pos)
    (hhp : httparseModel (c.take pos) 64 = .complete path) :
    parseLoopFuel (f + 1) buffer 0 [c] = .ok (path, c) := by
  have hcpos : 0 < c.length := List.length_pos.mpr hne
  have hmin : min c.length (buffer.length - 0) = c.length := by omega
  have hcl : c.take (min c.length (buffer.length - 0)) = c := by rw [hmin, List.take_length]
  have hwt : (writeChunk buffer 0 c).take (0 + c.length) = c := by
    have h := @writeChunk_take buffer 0 c (by omega)
    simpa using h
  have hple : pos ≤ c.length := fhe_le_length hfind
  have hwp : (writeChunk buffer 0 c).take pos = c.take pos := by
    rw [writeChunk]
    simp only [List.take_zero, List.nil_append, Nat.zero_add]
    rw [List.take_append_of_le_length hple]
  have hf2 : find_header_end ((writeChunk buffer 0
      (c.take (min c.length (buffer.length - 0)))).take
        (0 + min c.length (buffer.length - 0))) = some pos := by
    rw [hcl, hmin, hwt]
    exact hfind
  have hh2 : httparseModel ((writeChunk buffer 0
      (c.take (min c.length (buffer.length - 0)))).take pos) 64 = .complete path := by
    rw [hcl, hwp]
    exact hhp
  have hn0 : ¬ min c.length (buffer.length - 0) = 0 := by omega
  rw [parseLoopFuel_complete hn0 hf2 hh2, hcl, hmin, hwt]

/-- C6: every successful parse returns as raw bytes a contiguous prefix of
the client stream (all bytes read so far, in order, possibly extending past
the header terminator which it contains), and with rewriting disabled the
handler forwards to the backend exactly those bytes. -/
theorem parse_returns_all_bytes (chunks : List Bytes) (path : Str) (data : Bytes)
    (h : parse_http_request chunks = .ok (path, data)) :
    data <+: chunks.flatten ∧ find_header_end data ≠ none ∧
    (∀ (cfg : RouteConfig) (wo : Bool), cfg.rewrite_paths = false →
      backendWrites (handleConnection cfg (.ok (path, data)) true wo) = [data]) := by
  rw [parse_http_request] at h
  have hres := parseLoop_ok_shape _ _ _ _ _ _ (Nat.zero_le _) h
  simp only [List.take_zero, List.nil_append] at hres
  refine ⟨hres.1, hres.2, ?_⟩
  intro cfg wo hrw
  cases wo <;> simp [handleConnection, backendWrites, hrw]

/-- Witness for C6: a request with body bytes beyond the terminator is
returned whole and forwarded verbatim. -/
theorem parse_returns_all_bytes_witness :
    parse_http_request [asciiBytes "GET /api HTTP/1.1\r\n\r\nBODY"]
      = .ok ("/api".toList, asciiBytes "GET /api HTTP/1.1\r\n\r\nBODY") ∧
    asciiBytes "GET /api HTTP/1.1\r\n\r\nBODY" <+: ([asciiBytes "GET /api HTTP/1.1\r\n\r\nBODY"] : List Bytes).flatten ∧
    find_header_end (asciiBytes "GET /api HTTP/1.1\r\n\r\nBODY") ≠ none ∧
    backendWrites (handleConnection cfgW
      (.ok ("/api".toList, asciiBytes "GET /api HTTP/1.1\r\n\r\nBODY")) true true)
      = [asciiBytes "GET /api HTTP/1.1\r\n\r\nBODY"] := by
  have hp : parse_http_request [asciiBytes "GET /api HTTP/1.1\r\n\r\nBODY"]
      = .ok ("/api".toList, asciiBytes "GET /api HTTP/1.1\r\n\r\nBODY") := by
    rw [parse_http_request]
    exact parseLoop_single _ _ _ 21 _ (by rw [List.length_replicate]; decide) (by decide)
      (by decide) (by decide)
  have hall := parse_returns_all_bytes _ _ _ hp
  exact ⟨hp, hall.1, hall.2.1, hall.2.2 cfgW true rfl⟩

/-- C8: a stream that never contains the header terminator makes
parse_http_request fail with the early-close error, and the handler closes
a connection whose parse failed without performing any socket write. -/
theorem parse_early_close (chunks : List Bytes)
    (h : find_header_end chunks.flatten = none) :
    parse_http_request chunks = .error .connectionClosedEarly ∧
    (∀ (cfg : RouteConfig) (e : ParseError) (co wo : Bool),
      handleConnection cfg (.error e) co wo = []) := by
  constructor
  · rw [parse_http_request]
    apply parseLoop_no_terminator
    · exact Nat.zero_le _
    · simpa using h
  · intro cfg e co wo
    rfl

/-- Witness for C8: headers cut off before the terminator. -/
theorem parse_early_close_witness :
    parse_http_request [asciiBytes "GET /x HTTP/1.1\r\nHost"] = .error .connectionClosedEarly ∧
    handleConnection cfgW (.error .connectionClosedEarly) true true = [] := by
  have h := parse_early_close [asciiBytes "GET /x HTTP/1.1\r\nHost"] (by decide)
  exact ⟨h.1, h.2 cfgW .connectionClosedEarly true true⟩

/-- C9: for every way of splitting a byte stream containing the header
terminator into successive non-empty chunks, parse_http_request returns
the path parsed from the header region ending at the first terminator
occurrence, independent of the chunking. -/
theorem parse_chunking_independent (bytes : Bytes) (posEnd : Nat) (path : Str)
    (h1 : find_header_end bytes = some posEnd)
    (h2 : httparseModel (bytes.take posEnd) 64 = .complete path) :
    ∀ (chunks : List Bytes), chunks.flatten = bytes → (∀ x ∈ chunks, x ≠ []) →
      resultPath (parse_http_request chunks) = some path := by
  intro chunks hfl hne
  rw [parse_http_request]
  have hterm := parseLoop_terminator (chunksSize chunks + 1) (List.replicate 8192 0) 0 chunks posEnd
    (by omega) (by rw [List.length_replicate]; omega) hne
    (by rw [List.take_zero, List.nil_append, hfl]; exact h1)
    (by have := fhe_ge_4 h1; omega)
  simp only [List.take_zero, List.nil_append, hfl] at hterm
  obtain ⟨t, _, heq⟩ := hterm.1 path h2
  rw [heq]
  rfl

/-- Witness for C9: the same request delivered one byte at a time. -/
theorem parse_chunking_independent_witness :
    resultPath (parse_http_request ((asciiBytes "GET /w HTTP/1.1\r\n\r\n").map (fun b => [b])))
      = some ("/w".toList) := by
  apply parse_chunking_independent (asciiBytes "GET /w HTTP/1.1\r\n\r\n") 19 ("/w".toList)
    (by decide) (by decide)
  · decide
  · decide

theorem fhe_cons_notpre {b : Nat} {rest : Bytes}
    (h : ¬ ([13, 10, 13, 10] : Bytes).isPrefixOf (b :: rest) = true) :
    find_header_end (b :: rest) = (find_header_end rest).map (· + 1) := by
  simp only [find_header_end, if_neg h]

theorem fhe_skip1 {x : Nat} (hx : x ≠ 13) (l : Bytes) :
    find_header_end (x :: l) = (find_header_end l).map (· + 1) := by
  apply fhe_cons_notpre
  intro hc
  obtain ⟨r, hr⟩ := List.isPrefixOf_iff_prefix.mp hc
  simp at hr
  exact hx hr.1.symm

theorem fhe_skip_cr {y : Nat} (hy : y ≠ 13) (l : Bytes) :
    find_header_end (13 :: 10 :: y :: l) = (find_header_end (10 :: y :: l)).map (· + 1) := by
  apply fhe_cons_notpre
  intro hc
  obtain ⟨r, hr⟩ := List.isPrefixOf_iff_prefix.mp hc
  simp at hr
  exact hy hr.1.symm

theorem hdrBytes_eq : hdrBytes = [65, 58, 32, 98, 13, 10] := by decide

theorem reqLineBytes_eq :
    reqLineBytes = [71, 69, 84, 32, 47, 32, 72, 84, 84, 80, 47, 49, 46, 49, 13, 10] := by decide

theorem fhe_hdr_step (X : Bytes) (hX : X.head? = some 65) :
    find_header_end (hdrBytes ++ X) = (find_header_end X).map (· + 6) := by
  obtain ⟨X1, rfl⟩ : ∃ X1, X = 65 :: X1 := by
    cases X with
    | nil => cases hX
    | cons a X1 =>
      simp only [List.head?_cons, Option.some.injEq] at hX
      exact ⟨X1, by rw [hX]⟩
  rw [hdrBytes_eq]
  show find_header_end (65 :: 58 :: 32 :: 98 :: 13 :: 10 :: 65 :: X1) = _
  rw [fhe_skip1 (by omega), fhe_skip1 (by omega), fhe_skip1 (by omega), fhe_skip1 (by omega),
    fhe_skip_cr (by omega), fhe_skip1 (by omega)]
  cases find_header_end (65 :: X1) <;> simp

theorem fhe_c10_tail : ∀ n, 1 ≤ n →
    find_header_end ((List.replicate n hdrBytes).flatten ++ [13, 10]) = some (6 * n + 2) := by
  intro n
  induction n with
  | zero => omega
  | succ m ih =>
    intro _
    rw [List.replicate_succ, List.flatten_cons, List.append_assoc]
    by_cases hm : m = 0
    · subst hm
      decide
    · obtain ⟨k, rfl⟩ : ∃ k, m = k + 1 := ⟨m - 1, by omega⟩
      have hX : ((List.replicate (k + 1) hdrBytes).flatten ++ [13, 10]).head? = some 65 := by
        rw [List.replicate_succ, List.flatten_cons, hdrBytes_eq]
        rfl
      rw [fhe_hdr_step _ hX, ih (by omega)]
      simp only [Option.map_some']
      congr 1

theorem flatten_replicate_hdr_length : ∀ n, ((List.replicate n hdrBytes).flatten).length = 6 * n := by
  intro n
  induction n with
  | zero => rfl
  | succ m ih =>
    rw [List.replicate_succ, List.flatten_cons, List.length_append, ih, hdrBytes_eq]
    simp
    omega

theorem c10Request_length (n : Nat) : (c10Request n).length = 6 * n + 18 := by
  rw [c10Request, List.length_append, List.length_append, flatten_replicate_hdr_length,
    reqLineBytes_eq]
  simp
  omega

theorem fhe_c10 (n : Nat) (hn : 1 ≤ n) : find_header_end (c10Request n) = some (6 * n + 18) := by
  obtain ⟨k, rfl⟩ : ∃ k, n = k + 1 := ⟨n - 1, by omega⟩
  rw [c10Request, List.append_assoc, reqLineBytes_eq]
  have hX : (List.replicate (k + 1) hdrBytes).flatten ++ [13, 10] =
      65 :: (58 :: 32 :: 98 :: 13 :: 10 :: (List.replicate k hdrBytes).flatten ++ [13, 10]) := by
    rw [List.replicate_succ, List.flatten_cons, hdrBytes_eq]
    simp
  rw [show ([71, 69, 84, 32, 47, 32, 72, 84, 84, 80, 47, 49, 46, 49, 13, 10] : Bytes) ++
      ((List.replicate (k + 1) hdrBytes).flatten ++ [13, 10]) =
      71 :: 69 :: 84 :: 32 :: 47 :: 32 :: 72 :: 84 :: 84 :: 80 :: 47 :: 49 :: 46 :: 49 :: 13 :: 10 ::
        ((List.replicate (k + 1) hdrBytes).flatten ++ [13, 10]) from by simp]
  rw [fhe_skip1 (by omega), fhe_skip1 (by omega), fhe_skip1 (by omega), fhe_skip1 (by omega),
    fhe_skip1 (by omega), fhe_skip1 (by omega), fhe_skip1 (by omega), fhe_skip1 (by omega),
    fhe_skip1 (by omega), fhe_skip1 (by omega), fhe_skip1 (by omega), fhe_skip1 (by omega),
    fhe_skip1 (by omega), fhe_skip1 (by omega)]
  rw [show (13 : Nat) :: 10 :: ((List.replicate (k + 1) hdrBytes).flatten ++ [13, 10]) =
      13 :: 10 :: 65 :: (58 :: 32 :: 98 :: 13 :: 10 :: (List.replicate k hdrBytes).flatten ++ [13, 10])
      from by rw [hX]]
  rw [fhe_skip_cr (by omega), fhe_skip1 (by omega)]
  rw [show (65 : Nat) :: (58 :: 32 :: 98 :: 13 :: 10 :: (List.replicate k hdrBytes).flatten ++ [13, 10]) =
      (List.replicate (k + 1) hdrBytes).flatten ++ [13, 10] from by rw [hX]]
  rw [fhe_c10_tail (k + 1) (by omega)]
  simp only [Option.map_some']

theorem parseHeaderLine_hdr (X : Bytes) : parseHeaderLine (hdrBytes ++ X) = .done X := by
  rw [hdrBytes_eq]
  show parseHeaderLine (65 :: 58 :: 32 :: 98 :: 13 :: 10 :: X) = .done X
  simp +decide [parseHeaderLine, isTokenByte, List.takeWhile_cons]

theorem parseHeaders_too_many : ∀ (s n : Nat), s < n →
    parseHeaders ((List.replicate n hdrBytes).flatten ++ [13, 10]) s = .failed := by
  intro s
  induction s with
  | zero =>
    intro n hn
    obtain ⟨k, rfl⟩ : ∃ k, n = k + 1 := ⟨n - 1, by omega⟩
    rw [List.replicate_succ, List.flatten_cons, List.append_assoc, hdrBytes_eq]
    rfl
  | succ s1 ih =>
    intro n hn
    obtain ⟨k, rfl⟩ : ∃ k, n = k + 1 := ⟨n - 1, by omega⟩
    rw [List.replicate_succ, List.flatten_cons, List.append_assoc]
    have hline := parseHeaderLine_hdr ((List.replicate k hdrBytes).flatten ++ [13, 10])
    rw [show parseHeaders (hdrBytes ++ ((List.replicate k hdrBytes).flatten ++ [13, 10])) (s1 + 1) =
        match parseHeaderLine (hdrBytes ++ ((List.replicate k hdrBytes).flatten ++ [13, 10])) with
        | .done rest => parseHeaders rest s1
        | .incomplete => .incomplete
        | .failed => .failed
      from by rw [hdrBytes_eq]; rfl]
    rw [hline]
    exact ih k (by omega)

theorem parseRequestLine_req (X : Bytes) :
    parseRequestLine (reqLineBytes ++ X) = .done ("/".toList) X := by
  rw [reqLineBytes_eq]
  show parseRequestLine (71 :: 69 :: 84 :: 32 :: 47 :: 32 :: 72 :: 84 :: 84 :: 80 :: 47 :: 49
    :: 46 :: 49 :: 13 :: 10 :: X) = .done ("/".toList) X
  simp +decide [parseRequestLine, isTokenByte, isUriByte, List.takeWhile_cons]

theorem httparse_c10 (n : Nat) (hn : 64 < n) :
    httparseModel (c10Request n) 64 = .failed := by
  rw [c10Request, List.append_assoc]
  have hskip : skipEmptyLines (reqLineBytes ++ ((List.replicate n hdrBytes).flatten ++ [13, 10]))
      = reqLineBytes ++ ((List.replicate n hdrBytes).flatten ++ [13, 10]) := by
    rw [reqLineBytes_eq]
    rfl
  simp only [httparseModel, hskip, parseRequestLine_req, parseHeaders_too_many 64 n hn]

/-- C10: the fixed array of 64 header slots makes the parse of any
otherwise well-formed request with more than 64 header lines fail, so the
connection is closed with the malformed-request error. -/
theorem header_slot_limit (n : Nat) (hn : 64 < n) :
    parse_http_request [c10Request n] = .error .malformedRequest := by
  have h1 : 1 ≤ n := by omega
  have hfind := fhe_c10 n h1
  have hlen := c10Request_length n
  have hfail : httparseModel ((c10Request n).take (6 * n + 18)) 64 = .failed := by
    rw [← hlen, List.take_length]
    exact httparse_c10 n hn
  rw [parse_http_request]
  have hne : ∀ x ∈ [c10Request n], x ≠ [] := by
    intro x hx
    rw [List.mem_singleton] at hx
    subst hx
    intro hc
    have hlc := congrArg List.length hc
    rw [hlen] at hlc
    simp at hlc
  have hterm := parseLoop_terminator (chunksSize [c10Request n] + 1) (List.replicate 8192 0) 0
    [c10Request n] (6 * n + 18) (by omega) (by rw [List.length_replicate]; omega) hne
    (by simpa using hfind) (by omega)
  simp only [List.take_zero, List.nil_append, List.flatten_cons, List.flatten_nil,
    List.append_nil] at hterm
  exact hterm.2 hfail

/-- Witness for C10: sixty-five header lines fail the parse. -/
theorem header_slot_limit_witness :
    64 < 65 ∧ parse_http_request [c10Request 65] = .error .malformedRequest :=
  ⟨by omega, header_slot_limit 65 (by omega)⟩

/-- C7: the handler writes to the client exactly the literal 502 response
bytes when and only when the parse succeeded and the backend dial failed;
in every other case nothing is written to the client before the relay. -/
theorem gateway_502_exact (cfg : RouteConfig) (parsed : Except ParseError (Str × Bytes))
    (co wo : Bool) :
    clientWrites (handleConnection cfg parsed co wo) =
      if parseOk parsed && !co then
        [asciiBytes "HTTP/1.1 502 Bad Gateway\r\nContent-Length: 15\r\n\r\nBad Gateway\r\n"]
      else [] := by
  cases parsed with
  | error e => simp [handleConnection, clientWrites, parseOk]
  | ok pd =>
    obtain ⟨p, d⟩ := pd
    cases co <;> cases wo <;>
      simp [handleConnection, clientWrites, parseOk, response502]
